import Mathlib

/-!
Verification of the range-mode-with-threshold resolver in `src/solution.cpp`.

The C++ `Solution::numOfSubarrays` iterates over the queries; for each query
`(left, right, threshold)` it builds a frequency table of the elements of
`nums[left..right]` (`unordered_map<int,int> freq; for (i = left; i <= right;
i++) freq[nums[i]]++;`) and then scans the table keeping the best entry so far
in `(answer, maxFreq)`, starting from `answer = -1, maxFreq = 0`, updating on
`pair.second >= threshold && (answer == -1 || pair.second > maxFreq ||
(pair.second == maxFreq && pair.first < answer))`, and pushes `answer` onto the
result vector.

The embedding below models machine `int` by `Int` (no query in the source gets
anywhere near overflow-relevant claims), the frequency table by an association
list built exactly as the loop builds it (`bump` is `freq[v]++`, first
occurrence order), and the table scan by a left fold with the literal update
condition.  Since `unordered_map` iteration order is unspecified, the scan
order is additionally treated as an arbitrary permutation of the table where a
claim speaks about order independence.
-/

/-- One query of the C++ interface: `query[0] = left`, `query[1] = right`,
`query[2] = threshold`. -/
structure Query where
  left : Int
  right : Int
  threshold : Int
deriving DecidableEq, Repr

/-- The elements visited by `for (int i = left; i <= right; i++) ... nums[i]`,
in visit order.  Out-of-range access (impossible under the preconditions)
defaults to `0`. -/
def sliceElems (nums : List Int) (l r : Int) : List Int :=
  (List.range (r + 1 - l).toNat).map (fun (k : Nat) => nums.getD (l + (k : Int)).toNat 0)

/-- One execution of `freq[v]++` on the association-list frequency table:
increment the entry of `v` if present, otherwise append a fresh entry `(v, 1)`
(`unordered_map::operator[]` value-initializes the mapped value to `0`). -/
def bump : List (Int × Nat) → Int → List (Int × Nat)
  | [], v => [(v, 1)]
  | q :: rest, v => if q.1 = v then (q.1, q.2 + 1) :: rest else q :: bump rest v

/-- The frequency table built by the first loop of the query body, with keys in
first-occurrence order. -/
def buildFreq (l : List Int) : List (Int × Nat) :=
  l.foldl bump []

/-- One iteration of the selection loop of `Solution::numOfSubarrays`:
state is `(answer, maxFreq)`, the scanned entry is `(pair.first, pair.second)`.
Mirrors `if (pair.second >= threshold) { if (answer == -1 || pair.second >
maxFreq || (pair.second == maxFreq && pair.first < answer)) { answer =
pair.first; maxFreq = pair.second; } }`. -/
def selStep (t : Int) (st : Int × Nat) (p : Int × Nat) : Int × Nat :=
  if t ≤ (p.2 : Int) then
    if st.1 = -1 ∨ st.2 < p.2 ∨ (p.2 = st.2 ∧ p.1 < st.1) then p else st
  else st

/-- The whole selection loop, starting from `answer = -1, maxFreq = 0`. -/
def selectAnswer (t : Int) (pairs : List (Int × Nat)) : Int × Nat :=
  pairs.foldl (selStep t) (-1, 0)

/-- The answer `Solution::numOfSubarrays` computes for one query. -/
def answerQuery (nums : List Int) (q : Query) : Int :=
  (selectAnswer q.threshold (buildFreq (sliceElems nums q.left q.right))).1

namespace Solution

/-- `Solution::numOfSubarrays`: loop over the queries, `push_back` each
query's answer. -/
def numOfSubarrays (nums : List Int) (queries : List Query) : List Int :=
  queries.foldl (fun res q => res ++ [answerQuery nums q]) []

end Solution

/-- Selection-loop iteration of `SolutionOptimized::numOfSubarrays`, which
destructures the entry by structured binding `auto& [val, count]` instead of
`pair.first` / `pair.second`. -/
def selStepOpt (t : Int) (st : Int × Nat) (p : Int × Nat) : Int × Nat :=
  match p with
  | (val, c) =>
    if t ≤ (c : Int) then
      if st.1 = -1 ∨ st.2 < c ∨ (c = st.2 ∧ val < st.1) then (val, c) else st
    else st

/-- Selection loop of `SolutionOptimized`. -/
def selectAnswerOpt (t : Int) (pairs : List (Int × Nat)) : Int × Nat :=
  pairs.foldl (selStepOpt t) (-1, 0)

/-- Per-query answer of `SolutionOptimized::numOfSubarrays`; the
frequency-building loop is textually identical to `Solution`'s. -/
def answerQueryOpt (nums : List Int) (q : Query) : Int :=
  (selectAnswerOpt q.threshold (buildFreq (sliceElems nums q.left q.right))).1

namespace SolutionOptimized

/-- `SolutionOptimized::numOfSubarrays`. -/
def numOfSubarrays (nums : List Int) (queries : List Query) : List Int :=
  queries.foldl (fun res q => res ++ [answerQueryOpt nums q]) []

end SolutionOptimized

/-- Mutable state of a call to `Solution::numOfSubarrays`: the two reference
parameters and the local result vector. -/
structure ResolverState where
  nums : List Int
  queries : List Query
  result : List Int
deriving DecidableEq, Repr

/-- The outer query loop as a state transformer: each iteration reads
`s.nums`, computes the answer of the next pending query and appends it to
`s.result`; nothing else of the state is touched (the source never assigns to
`nums` or `queries`). -/
def runQueries : List Query → ResolverState → ResolverState
  | [], s => s
  | q :: rest, s => runQueries rest { s with result := s.result ++ [answerQuery s.nums q] }

/-- A full call: start from the two inputs and an empty result vector and run
the query loop. -/
def runResolver (nums : List Int) (queries : List Query) : ResolverState :=
  runQueries queries ⟨nums, queries, []⟩

/-- Fuel-indexed version of the frequency loop `for (int i = left; i <= right;
i++) freq[nums[i]]++`: `none` means the fuel ran out before the loop exited. -/
def freqLoopF (nums : List Int) (r : Int) : Nat → Int → List (Int × Nat) → Option (List (Int × Nat))
  | 0, i, acc => if i ≤ r then none else some acc
  | fuel + 1, i, acc =>
    if i ≤ r then freqLoopF nums r fuel (i + 1) (bump acc (nums.getD i.toNat 0)) else some acc

/-- Per-query answer computed through the fuel-indexed loop, with fuel equal to
the length of the queried range. -/
def answerQueryF (nums : List Int) (q : Query) : Option Int :=
  match freqLoopF nums q.right ((q.right + 1 - q.left).toNat) q.left [] with
  | none => none
  | some pairs => some ((selectAnswer q.threshold pairs).1)

/-- The whole resolver through the fuel-indexed loop: `none` as soon as one
query's loop fails to terminate within its fuel. -/
def numOfSubarraysF (nums : List Int) : List Query → Option (List Int)
  | [] => some []
  | q :: rest =>
    match answerQueryF nums q, numOfSubarraysF nums rest with
    | some a, some res => some (a :: res)
    | _, _ => none

/-- `st` dominates entry `p`: strictly larger count, or equal count and a key
that is at most `p`'s.  This is the invariant order of the selection loop. -/
def geP (st p : Int × Nat) : Prop :=
  p.2 < st.2 ∨ (p.2 = st.2 ∧ st.1 ≤ p.1)

/-- Keys of a frequency table. -/
def keysOf (acc : List (Int × Nat)) : List Int :=
  acc.map Prod.fst

/-- Count recorded for `v` in the table (`0` when absent). -/
def keyCount : List (Int × Nat) → Int → Nat
  | [], _ => 0
  | q :: rest, v => if q.1 = v then q.2 else keyCount rest v

/-! ### Frequency-table lemmas -/

theorem keyCount_bump_self (acc : List (Int × Nat)) (v : Int) :
    keyCount (bump acc v) v = keyCount acc v + 1 := by
  induction acc with
  | nil => simp [bump, keyCount]
  | cons q rest ih =>
    by_cases h : q.1 = v
    · simp [bump, keyCount, h]
    · simp [bump, keyCount, h, ih]

theorem keyCount_bump_ne (acc : List (Int × Nat)) (v w : Int) (h : w ≠ v) :
    keyCount (bump acc v) w = keyCount acc w := by
  induction acc with
  | nil =>
    have hne : ¬ (v = w) := fun hh => h hh.symm
    simp [bump, keyCount, hne]
  | cons q rest ih =>
    by_cases hq : q.1 = v
    · subst hq
      have hne : ¬ (q.1 = w) := fun hh => h hh.symm
      simp [bump, keyCount, hne]
    · simp [bump, keyCount, hq, ih]

theorem keysOf_bump (acc : List (Int × Nat)) (v : Int) :
    keysOf (bump acc v) = if v ∈ keysOf acc then keysOf acc else keysOf acc ++ [v] := by
  induction acc with
  | nil => simp [bump, keysOf]
  | cons q rest ih =>
    by_cases hq : q.1 = v
    · simp [bump, keysOf, hq]
    · have hne : ¬ (v = q.1) := fun hh => hq hh.symm
      have h1 : keysOf (bump (q :: rest) v) = q.1 :: keysOf (bump rest v) := by
        simp [bump, keysOf, hq]
      have h2 : keysOf ((q :: rest) : List (Int × Nat)) = q.1 :: keysOf rest := rfl
      rw [h1, ih, h2]
      by_cases hv : v ∈ keysOf rest
      · rw [if_pos hv, if_pos (List.mem_cons_of_mem q.1 hv)]
      · have hnm : v ∉ q.1 :: keysOf rest := by
          intro hmem
          rcases List.mem_cons.mp hmem with hh | hh
          · exact hne hh
          · exact hv hh
        rw [if_neg hv, if_neg hnm]
        rfl

theorem mem_keysOf_bump (acc : List (Int × Nat)) (v w : Int) :
    w ∈ keysOf (bump acc v) ↔ w ∈ keysOf acc ∨ w = v := by
  rw [keysOf_bump]
  by_cases hv : v ∈ keysOf acc
  · simp only [if_pos hv]
    constructor
    · exact Or.inl
    · rintro (h | rfl)
      · exact h
      · exact hv
  · simp [if_neg hv, List.mem_append]

theorem nodup_keysOf_bump (acc : List (Int × Nat)) (v : Int)
    (h : (keysOf acc).Nodup) : (keysOf (bump acc v)).Nodup := by
  rw [keysOf_bump]
  by_cases hv : v ∈ keysOf acc
  · simpa [if_pos hv] using h
  · rw [if_neg hv]
    refine List.Nodup.append h (List.nodup_singleton v) ?_
    intro a ha hb
    rw [List.mem_singleton] at hb
    exact hv (hb ▸ ha)

theorem mem_pair_iff (acc : List (Int × Nat)) (h : (keysOf acc).Nodup) (v : Int) (c : Nat) :
    (v, c) ∈ acc ↔ v ∈ keysOf acc ∧ c = keyCount acc v := by
  induction acc with
  | nil => simp [keysOf, keyCount]
  | cons q rest ih =>
    have hkeys : keysOf (q :: rest) = q.1 :: keysOf rest := rfl
    rw [hkeys] at h
    have hnot : q.1 ∉ keysOf rest := (List.nodup_cons.mp h).1
    have hrest := ih (List.nodup_cons.mp h).2
    by_cases hq : q.1 = v
    · subst hq
      constructor
      · intro hm
        rcases List.mem_cons.mp hm with hm | hm
        · rw [← hm]
          simp [keysOf, keyCount]
        · exact absurd (List.mem_map_of_mem Prod.fst hm) hnot
      · rintro ⟨-, hc⟩
        simp only [keyCount, if_pos rfl] at hc
        subst hc
        exact List.mem_cons_self _ _
    · have hne : v ≠ q.1 := fun hh => hq hh.symm
      constructor
      · intro hm
        rcases List.mem_cons.mp hm with hm | hm
        · exact absurd (congrArg Prod.fst hm).symm hq
        · obtain ⟨h1, h2⟩ := hrest.mp hm
          exact ⟨List.mem_cons_of_mem _ h1, by simpa [keyCount, hq] using h2⟩
      · rintro ⟨h1, h2⟩
        rcases List.mem_cons.mp h1 with h1 | h1
        · exact absurd h1 hne
        · simp only [keyCount, if_neg hq] at h2
          exact List.mem_cons_of_mem _ (hrest.mpr ⟨h1, h2⟩)

theorem keyCount_foldl (l : List Int) :
    ∀ (acc : List (Int × Nat)) (v : Int),
      keyCount (List.foldl bump acc l) v = keyCount acc v + l.count v := by
  induction l with
  | nil => intro acc v; simp [keyCount]
  | cons a l ih =>
    intro acc v
    rw [List.foldl_cons, ih]
    by_cases h : a = v
    · subst h
      rw [keyCount_bump_self]
      simp [List.count_cons]
      omega
    · rw [keyCount_bump_ne acc a v (fun hh => h hh.symm)]
      simp [List.count_cons, h]

theorem mem_keysOf_foldl (l : List Int) :
    ∀ (acc : List (Int × Nat)) (v : Int),
      v ∈ keysOf (List.foldl bump acc l) ↔ v ∈ keysOf acc ∨ v ∈ l := by
  induction l with
  | nil => intro acc v; simp
  | cons a l ih =>
    intro acc v
    rw [List.foldl_cons, ih, mem_keysOf_bump]
    simp [List.mem_cons]
    tauto

theorem nodup_keysOf_foldl (l : List Int) :
    ∀ acc : List (Int × Nat), (keysOf acc).Nodup → (keysOf (List.foldl bump acc l)).Nodup := by
  induction l with
  | nil => intro acc h; simpa using h
  | cons a l ih =>
    intro acc h
    rw [List.foldl_cons]
    exact ih _ (nodup_keysOf_bump acc a h)

theorem mem_buildFreq (l : List Int) (v : Int) (c : Nat) :
    (v, c) ∈ buildFreq l ↔ v ∈ l ∧ c = l.count v := by
  unfold buildFreq
  rw [mem_pair_iff _ (nodup_keysOf_foldl l [] (by simp [keysOf]))]
  rw [mem_keysOf_foldl, keyCount_foldl]
  simp [keysOf, keyCount]

/-! ### Selection-loop lemmas -/

theorem geP_trans {a b c : Int × Nat} (h1 : geP a b) (h2 : geP b c) : geP a c := by
  unfold geP at h1 h2 ⊢
  omega

theorem selectAux (t : Int) (pairs : List (Int × Nat)) :
    ∀ st : Int × Nat,
      (∀ p ∈ pairs, t ≤ (p.2 : Int) → p.1 ≠ -1) →
      (st.1 ≠ -1 ∨ st = (-1, 0)) →
      (List.foldl (selStep t) st pairs = st ∨
        (List.foldl (selStep t) st pairs ∈ pairs ∧
          t ≤ ((List.foldl (selStep t) st pairs).2 : Int) ∧
          (List.foldl (selStep t) st pairs).1 ≠ -1)) ∧
      (∀ p ∈ pairs, t ≤ (p.2 : Int) → geP (List.foldl (selStep t) st pairs) p) ∧
      (st.1 ≠ -1 → geP (List.foldl (selStep t) st pairs) st) ∧
      ((List.foldl (selStep t) st pairs).1 = -1 →
        List.foldl (selStep t) st pairs = st ∧ ∀ p ∈ pairs, ¬ t ≤ (p.2 : Int)) := by
  induction pairs with
  | nil =>
    intro st hK hst
    refine ⟨Or.inl rfl, ?_, ?_, ?_⟩
    · intro p hp
      simp at hp
    · intro h
      exact Or.inr ⟨rfl, le_refl _⟩
    · intro h
      exact ⟨rfl, by simp⟩
  | cons p rest ih =>
    intro st hK hst
    have hK' : ∀ q ∈ rest, t ≤ (q.2 : Int) → q.1 ≠ -1 :=
      fun q hq => hK q (List.mem_cons_of_mem p hq)
    have hpmem : p ∈ p :: rest := List.mem_cons_self p rest
    simp only [List.foldl_cons]
    by_cases hq : t ≤ (p.2 : Int)
    · by_cases hcond : st.1 = -1 ∨ st.2 < p.2 ∨ (p.2 = st.2 ∧ p.1 < st.1)
      · -- the loop takes the entry: state becomes p
        have hupd : selStep t st p = p := by
          unfold selStep
          rw [if_pos hq, if_pos hcond]
        rw [hupd]
        have hp1 : p.1 ≠ -1 := hK p hpmem hq
        obtain ⟨ih1, ih2, ih3, ih4⟩ := ih p hK' (Or.inl hp1)
        refine ⟨?_, ?_, ?_, ?_⟩
        · rcases ih1 with h | ⟨hm, hqr, hne⟩
          · refine Or.inr ⟨?_, ?_, ?_⟩
            · rw [h]; exact hpmem
            · rw [h]; exact hq
            · rw [h]; exact hp1
          · exact Or.inr ⟨List.mem_cons_of_mem p hm, hqr, hne⟩
        · intro q hqm hqual
          rcases List.mem_cons.mp hqm with rfl | hqm
          · exact ih3 hp1
          · exact ih2 q hqm hqual
        · intro hstne
          have hgeps : geP p st := by
            unfold geP
            rcases hcond with h | h | ⟨h1, h2⟩
            · exact absurd h hstne
            · omega
            · omega
          exact geP_trans (ih3 hp1) hgeps
        · intro hres
          obtain ⟨heq, -⟩ := ih4 hres
          rw [heq] at hres
          exact absurd hres hp1
      · -- the entry qualifies but loses: state unchanged
        have hupd : selStep t st p = st := by
          unfold selStep
          rw [if_pos hq, if_neg hcond]
        rw [hupd]
        have hstne : st.1 ≠ -1 := by
          intro h
          exact hcond (Or.inl h)
        have hgep : geP st p := by
          unfold geP
          push_neg at hcond
          omega
        obtain ⟨ih1, ih2, ih3, ih4⟩ := ih st hK' (Or.inl hstne)
        refine ⟨?_, ?_, ?_, ?_⟩
        · rcases ih1 with h | ⟨hm, hqr, hne⟩
          · exact Or.inl h
          · exact Or.inr ⟨List.mem_cons_of_mem p hm, hqr, hne⟩
        · intro q hqm hqual
          rcases List.mem_cons.mp hqm with rfl | hqm
          · exact geP_trans (ih3 hstne) hgep
          · exact ih2 q hqm hqual
        · intro h
          exact ih3 hstne
        · intro hres
          obtain ⟨heq, -⟩ := ih4 hres
          rw [heq] at hres
          exact absurd hres hstne
    · -- the entry does not qualify: state unchanged
      have hupd : selStep t st p = st := by
        unfold selStep
        rw [if_neg hq]
      rw [hupd]
      obtain ⟨ih1, ih2, ih3, ih4⟩ := ih st hK' hst
      refine ⟨?_, ?_, ?_, ?_⟩
      · rcases ih1 with h | ⟨hm, hqr, hne⟩
        · exact Or.inl h
        · exact Or.inr ⟨List.mem_cons_of_mem p hm, hqr, hne⟩
      · intro q hqm hqual
        rcases List.mem_cons.mp hqm with rfl | hqm
        · exact absurd hqual hq
        · exact ih2 q hqm hqual
      · exact ih3
      · intro hres
        obtain ⟨heq, hrest⟩ := ih4 hres
        refine ⟨heq, ?_⟩
        intro q hqm
        rcases List.mem_cons.mp hqm with rfl | hqm
        · exact hq
        · exact hrest q hqm

theorem select_spec (t : Int) (pairs : List (Int × Nat))
    (hK : ∀ p ∈ pairs, t ≤ (p.2 : Int) → p.1 ≠ -1) :
    ((selectAnswer t pairs).1 = -1 →
      selectAnswer t pairs = (-1, 0) ∧ ∀ p ∈ pairs, ¬ t ≤ (p.2 : Int)) ∧
    ((selectAnswer t pairs).1 ≠ -1 →
      selectAnswer t pairs ∈ pairs ∧ t ≤ ((selectAnswer t pairs).2 : Int) ∧
        ∀ p ∈ pairs, t ≤ (p.2 : Int) → geP (selectAnswer t pairs) p) := by
  obtain ⟨h1, h2, h3, h4⟩ := selectAux t pairs (-1, 0) hK (Or.inr rfl)
  constructor
  · intro hres
    obtain ⟨heq, hnq⟩ := h4 hres
    exact ⟨heq, hnq⟩
  · intro hres
    rcases h1 with h | ⟨hm, hqr, -⟩
    · exact absurd (congrArg Prod.fst h) hres
    · exact ⟨hm, hqr, h2⟩

theorem foldl_selStep_no_qual (t : Int) (pairs : List (Int × Nat))
    (h : ∀ p ∈ pairs, ¬ t ≤ (p.2 : Int)) :
    ∀ st : Int × Nat, List.foldl (selStep t) st pairs = st := by
  induction pairs with
  | nil => intro st; rfl
  | cons p rest ih =>
    intro st
    have hupd : selStep t st p = st := by
      unfold selStep
      rw [if_neg (h p (List.mem_cons_self p rest))]
    rw [List.foldl_cons, hupd]
    exact ih (fun q hq => h q (List.mem_cons_of_mem p hq)) st

theorem select_unique (t : Int) (pairs qairs : List (Int × Nat))
    (hperm : pairs.Perm qairs)
    (hK : ∀ p ∈ pairs, t ≤ (p.2 : Int) → p.1 ≠ -1) :
    selectAnswer t pairs = selectAnswer t qairs := by
  have hK2 : ∀ p ∈ qairs, t ≤ (p.2 : Int) → p.1 ≠ -1 :=
    fun p hp => hK p (hperm.mem_iff.mpr hp)
  obtain ⟨ha1, ha2⟩ := select_spec t pairs hK
  obtain ⟨hb1, hb2⟩ := select_spec t qairs hK2
  by_cases h : (selectAnswer t pairs).1 = -1
  · obtain ⟨heq, hnq⟩ := ha1 h
    have hnq2 : ∀ p ∈ qairs, ¬ t ≤ (p.2 : Int) :=
      fun p hp => hnq p (hperm.mem_iff.mpr hp)
    rw [heq]
    exact (foldl_selStep_no_qual t qairs hnq2 (-1, 0)).symm
  · obtain ⟨hm, hqr, hbest⟩ := ha2 h
    have hm2 : selectAnswer t pairs ∈ qairs := hperm.mem_iff.mp hm
    have h2 : (selectAnswer t qairs).1 ≠ -1 := by
      intro hres
      exact (hb1 hres).2 _ hm2 hqr
    obtain ⟨hm3, hqr3, hbest3⟩ := hb2 h2
    have hab : geP (selectAnswer t pairs) (selectAnswer t qairs) :=
      hbest _ (hperm.mem_iff.mpr hm3) hqr3
    have hba : geP (selectAnswer t qairs) (selectAnswer t pairs) :=
      hbest3 _ hm2 hqr
    unfold geP at hab hba
    exact Prod.ext (by omega) (by omega)

/-! ### Bridging lemmas -/

theorem foldl_push_eq_map (nums : List Int) (queries : List Query) :
    ∀ acc : List Int,
      queries.foldl (fun res q => res ++ [answerQuery nums q]) acc
        = acc ++ queries.map (answerQuery nums) := by
  induction queries with
  | nil => intro acc; simp
  | cons q rest ih =>
    intro acc
    rw [List.foldl_cons, ih, List.map_cons, List.append_assoc]
    rfl

theorem numOfSubarrays_eq_map (nums : List Int) (queries : List Query) :
    Solution.numOfSubarrays nums queries = queries.map (answerQuery nums) := by
  unfold Solution.numOfSubarrays
  rw [foldl_push_eq_map]
  rfl

theorem answerQuery_def (nums : List Int) (l r t : Int) :
    answerQuery nums ⟨l, r, t⟩
      = (selectAnswer t (buildFreq (sliceElems nums l r))).1 := rfl

theorem hK_of_no_collision (nums : List Int) (l r t : Int)
    (hno : (((sliceElems nums l r).count (-1) : Nat) : Int) < t) :
    ∀ p ∈ buildFreq (sliceElems nums l r), t ≤ (p.2 : Int) → p.1 ≠ -1 := by
  rintro ⟨v, c⟩ hp hq h1
  obtain ⟨hv, hc⟩ := (mem_buildFreq _ v c).mp hp
  simp only at h1
  subst h1
  rw [hc] at hq
  omega

theorem sliceElems_cons (nums : List Int) (l r : Int) (h : l ≤ r) :
    sliceElems nums l r = nums.getD l.toNat 0 :: sliceElems nums (l + 1) r := by
  unfold sliceElems
  have h1 : (r + 1 - l).toNat = (r + 1 - (l + 1)).toNat + 1 := by omega
  rw [h1, List.range_succ_eq_map, List.map_cons, List.map_map]
  have h2 : (fun k : Nat => nums.getD (l + (k : Int)).toNat 0) ∘ Nat.succ
      = fun k : Nat => nums.getD (l + 1 + (k : Int)).toNat 0 := by
    funext k
    show nums.getD (l + ((k + 1 : Nat) : Int)).toNat 0 = nums.getD (l + 1 + (k : Int)).toNat 0
    exact congrArg (fun i => nums.getD i 0) (by omega)
  rw [h2]
  simp

theorem freqLoopF_eq_some (nums : List Int) (r : Int) :
    ∀ (fuel : Nat) (i : Int) (acc : List (Int × Nat)),
      (r + 1 - i).toNat ≤ fuel →
      freqLoopF nums r fuel i acc = some ((sliceElems nums i r).foldl bump acc) := by
  intro fuel
  induction fuel with
  | zero =>
    intro i acc h
    have hir : ¬ i ≤ r := by omega
    have hz : (r + 1 - i).toNat = 0 := by omega
    simp [freqLoopF, hir, sliceElems, hz]
  | succ fuel ih =>
    intro i acc h
    by_cases hir : i ≤ r
    · simp only [freqLoopF, if_pos hir]
      rw [ih (i + 1) (bump acc (nums.getD i.toNat 0)) (by omega)]
      rw [sliceElems_cons nums i r hir, List.foldl_cons]
    · have hz : (r + 1 - i).toNat = 0 := by omega
      simp [freqLoopF, hir, sliceElems, hz]

theorem answerQueryF_eq (nums : List Int) (q : Query) :
    answerQueryF nums q = some (answerQuery nums q) := by
  unfold answerQueryF
  rw [freqLoopF_eq_some nums q.right _ q.left [] (le_refl _)]
  rfl

theorem runQueries_spec (qs : List Query) :
    ∀ s : ResolverState,
      (runQueries qs s).nums = s.nums ∧ (runQueries qs s).queries = s.queries ∧
      (runQueries qs s).result = s.result ++ qs.map (answerQuery s.nums) := by
  induction qs with
  | nil => intro s; simp [runQueries]
  | cons q rest ih =>
    intro s
    obtain ⟨h1, h2, h3⟩ := ih { s with result := s.result ++ [answerQuery s.nums q] }
    refine ⟨h1, h2, ?_⟩
    rw [runQueries, h3]
    simp

theorem selStepOpt_eq_selStep : selStepOpt = selStep := by
  funext t st p
  rcases p with ⟨v, c⟩
  rfl

/-! ### Claim C1 -/

/-- C1 as frozen is false on the code: for array `[-1, -1, 3]` and query
`(0, 2, 1)` the resolver returns `3`, which is not `-1`, yet the value `-1`
occurs in the range with a strictly higher occurrence count (2 > 1) that meets
the threshold.  The `answer == -1` sentinel test mistakes the stored value
`-1` for "nothing selected yet". -/
theorem C1_counterexample :
    answerQuery [-1, -1, 3] ⟨0, 2, 1⟩ = 3 ∧
    (-1) ∈ sliceElems [-1, -1, 3] 0 2 ∧
    (sliceElems [-1, -1, 3] 0 2).count 3 < (sliceElems [-1, -1, 3] 0 2).count (-1) ∧
    (1 : Int) ≤ ((sliceElems [-1, -1, 3] 0 2).count (-1) : Int) := by decide

/-- C1 (amended): for every valid query whose range does not contain `-1` with
qualifying multiplicity (occurrence count of `-1` below the threshold), a
non-`-1` answer occurs in the range, its occurrence count meets the threshold,
and no other value of the range has a strictly higher qualifying count or an
equal count with a smaller value. -/
theorem C1_theorem (nums : List Int) (l r t : Int)
    (h0 : 0 ≤ l) (hlr : l ≤ r) (hr : r < (nums.length : Int)) (ht : 1 ≤ t)
    (hno : (((sliceElems nums l r).count (-1) : Nat) : Int) < t)
    (hne : answerQuery nums ⟨l, r, t⟩ ≠ -1) :
    answerQuery nums ⟨l, r, t⟩ ∈ sliceElems nums l r ∧
    t ≤ ((sliceElems nums l r).count (answerQuery nums ⟨l, r, t⟩) : Int) ∧
    ∀ v ∈ sliceElems nums l r, v ≠ answerQuery nums ⟨l, r, t⟩ →
      ¬(((sliceElems nums l r).count (answerQuery nums ⟨l, r, t⟩) < (sliceElems nums l r).count v
            ∧ t ≤ ((sliceElems nums l r).count v : Int)) ∨
        ((sliceElems nums l r).count v = (sliceElems nums l r).count (answerQuery nums ⟨l, r, t⟩)
            ∧ v < answerQuery nums ⟨l, r, t⟩)) := by
  have hK := hK_of_no_collision nums l r t hno
  obtain ⟨-, hspec⟩ := select_spec t (buildFreq (sliceElems nums l r)) hK
  have han : answerQuery nums ⟨l, r, t⟩
      = (selectAnswer t (buildFreq (sliceElems nums l r))).1 := rfl
  rw [han] at hne ⊢
  obtain ⟨hm, hq, hbest⟩ := hspec hne
  have hm2 : ((selectAnswer t (buildFreq (sliceElems nums l r))).1,
      (selectAnswer t (buildFreq (sliceElems nums l r))).2)
        ∈ buildFreq (sliceElems nums l r) := by simpa using hm
  obtain ⟨hv1, hc⟩ := (mem_buildFreq _ _ _).mp hm2
  refine ⟨hv1, ?_, ?_⟩
  · rw [← hc]
    exact hq
  · intro v hvmem hvne hcontra
    have hvpair : (v, (sliceElems nums l r).count v) ∈ buildFreq (sliceElems nums l r) :=
      (mem_buildFreq _ v _).mpr ⟨hvmem, rfl⟩
    rcases hcontra with ⟨hgt, hqual⟩ | ⟨heq, hlt⟩
    · have hg := hbest (v, (sliceElems nums l r).count v) hvpair hqual
      unfold geP at hg
      have hg2 : (sliceElems nums l r).count v < (selectAnswer t (buildFreq (sliceElems nums l r))).2
          ∨ ((sliceElems nums l r).count v = (selectAnswer t (buildFreq (sliceElems nums l r))).2
              ∧ (selectAnswer t (buildFreq (sliceElems nums l r))).1 ≤ v) := hg
      omega
    · have hqual : t ≤ (((sliceElems nums l r).count v : Nat) : Int) := by
        rw [heq, ← hc]
        exact hq
      have hg := hbest (v, (sliceElems nums l r).count v) hvpair hqual
      unfold geP at hg
      have hg2 : (sliceElems nums l r).count v < (selectAnswer t (buildFreq (sliceElems nums l r))).2
          ∨ ((sliceElems nums l r).count v = (selectAnswer t (buildFreq (sliceElems nums l r))).2
              ∧ (selectAnswer t (buildFreq (sliceElems nums l r))).1 ≤ v) := hg
      omega

/-- Witness for C1: array `[1, 2, 2, 3]`, query `(0, 3, 2)` satisfies every
hypothesis; the answer `2` lies in the range and its count meets the
threshold. -/
theorem C1_witness :
    answerQuery [1, 2, 2, 3] ⟨0, 3, 2⟩ ∈ sliceElems [1, 2, 2, 3] 0 3 ∧
    (2 : Int) ≤ ((sliceElems [1, 2, 2, 3] 0 3).count (answerQuery [1, 2, 2, 3] ⟨0, 3, 2⟩) : Int) := by
  have h := C1_theorem [1, 2, 2, 3] 0 3 2 (by decide) (by decide) (by decide) (by decide)
      (by decide) (by decide)
  exact ⟨h.1, h.2.1⟩

/-! ### Claim C2 -/

/-- C2 as frozen is false on the code: for array `[-1, -1, 3, 3]` and query
`(0, 3, 2)` the values `-1` and `3` tie at the maximum qualifying count 2, the
smallest tied value is `-1`, yet the resolver returns `3`; moreover scanning
the same frequency table in the opposite order returns `-1`, so the scan order
does influence the result. -/
theorem C2_counterexample :
    answerQuery [-1, -1, 3, 3] ⟨0, 3, 2⟩ = 3 ∧
    (sliceElems [-1, -1, 3, 3] 0 3).count (-1) = 2 ∧
    (sliceElems [-1, -1, 3, 3] 0 3).count 3 = 2 ∧
    (-1) ∈ sliceElems [-1, -1, 3, 3] 0 3 ∧ (2 : Int) ≤ ((2 : Nat) : Int) ∧ (-1 : Int) < 3 ∧
    (selectAnswer 2 [((3 : Int), (2 : Nat)), (-1, 2)]).1 = -1 ∧
    [((3 : Int), (2 : Nat)), (-1, 2)].Perm (buildFreq (sliceElems [-1, -1, 3, 3] 0 3)) := by
  decide

/-- C2 (amended): for every valid query whose range does not contain `-1` with
qualifying multiplicity, the selection loop returns the same answer on every
permutation of the frequency table (the scan order does not influence the
result), and whenever a value of the range ties with the answer at a
qualifying count, the answer is at most that value; in particular for array
`[1, 1, 2, 2]` and query `(0, 3, 2)` the answer is `1`. -/
theorem C2_theorem (nums : List Int) (l r t : Int)
    (h0 : 0 ≤ l) (hlr : l ≤ r) (hr : r < (nums.length : Int)) (ht : 1 ≤ t)
    (hno : (((sliceElems nums l r).count (-1) : Nat) : Int) < t) :
    (∀ pairs : List (Int × Nat), pairs.Perm (buildFreq (sliceElems nums l r)) →
        (selectAnswer t pairs).1 = answerQuery nums ⟨l, r, t⟩) ∧
    (∀ v ∈ sliceElems nums l r, t ≤ ((sliceElems nums l r).count v : Int) →
        (sliceElems nums l r).count v = (sliceElems nums l r).count (answerQuery nums ⟨l, r, t⟩) →
        answerQuery nums ⟨l, r, t⟩ ≤ v) := by
  have hK := hK_of_no_collision nums l r t hno
  constructor
  · intro pairs hperm
    have hKp : ∀ p ∈ pairs, t ≤ (p.2 : Int) → p.1 ≠ -1 :=
      fun p hp => hK p (hperm.mem_iff.mp hp)
    have huniq := select_unique t pairs (buildFreq (sliceElems nums l r)) hperm hKp
    rw [answerQuery_def]
    exact congrArg Prod.fst huniq
  · intro v hv hqv heq
    by_cases hne : answerQuery nums ⟨l, r, t⟩ = -1
    · exfalso
      obtain ⟨hspec1, -⟩ := select_spec t (buildFreq (sliceElems nums l r)) hK
      have han : answerQuery nums ⟨l, r, t⟩
          = (selectAnswer t (buildFreq (sliceElems nums l r))).1 := rfl
      rw [han] at hne
      obtain ⟨-, hnq⟩ := hspec1 hne
      have hmem : (v, (sliceElems nums l r).count v) ∈ buildFreq (sliceElems nums l r) :=
        (mem_buildFreq _ v _).mpr ⟨hv, rfl⟩
      exact hnq (v, (sliceElems nums l r).count v) hmem hqv
    · obtain ⟨-, hspec2⟩ := select_spec t (buildFreq (sliceElems nums l r)) hK
      have han : answerQuery nums ⟨l, r, t⟩
          = (selectAnswer t (buildFreq (sliceElems nums l r))).1 := rfl
      rw [han] at hne heq ⊢
      obtain ⟨hm, hq, hbest⟩ := hspec2 hne
      have hm2 : ((selectAnswer t (buildFreq (sliceElems nums l r))).1,
          (selectAnswer t (buildFreq (sliceElems nums l r))).2)
            ∈ buildFreq (sliceElems nums l r) := by simpa using hm
      obtain ⟨-, hc⟩ := (mem_buildFreq _ _ _).mp hm2
      have hg := hbest (v, (sliceElems nums l r).count v)
        ((mem_buildFreq _ v _).mpr ⟨hv, rfl⟩) hqv
      unfold geP at hg
      have hg2 : (sliceElems nums l r).count v < (selectAnswer t (buildFreq (sliceElems nums l r))).2
          ∨ ((sliceElems nums l r).count v = (selectAnswer t (buildFreq (sliceElems nums l r))).2
              ∧ (selectAnswer t (buildFreq (sliceElems nums l r))).1 ≤ v) := hg
      omega

/-- Witness for C2: the spec's Scenario 2 (`[1, 1, 2, 2]`, query `(0, 3, 2)`):
scanning the frequency table in the reversed order gives the same answer, and
that answer is `1`, the smaller of the two tied values. -/
theorem C2_witness :
    (selectAnswer 2 [((2 : Int), (2 : Nat)), (1, 2)]).1 = answerQuery [1, 1, 2, 2] ⟨0, 3, 2⟩ ∧
    answerQuery [1, 1, 2, 2] ⟨0, 3, 2⟩ = 1 := by
  refine ⟨(C2_theorem [1, 1, 2, 2] 0 3 2 (by decide) (by decide) (by decide) (by decide)
      (by decide)).1 [((2 : Int), (2 : Nat)), (1, 2)] (by decide), by decide⟩

/-! ### Claim C3 -/

/-- C3 as frozen is false on the code: for array `[-1, -1]` and query
`(0, 1, 1)` the resolver returns the sentinel `-1` although the value `-1`
reaches the threshold, so "answer is `-1` iff no value's count reaches the
threshold" fails in the only-if direction. -/
theorem C3_counterexample :
    answerQuery [-1, -1] ⟨0, 1, 1⟩ = -1 ∧
    (-1) ∈ sliceElems [-1, -1] 0 1 ∧
    (1 : Int) ≤ ((sliceElems [-1, -1] 0 1).count (-1) : Int) := by decide

/-- C3 (amended): for every valid query whose range does not contain `-1` with
qualifying multiplicity, the answer is the sentinel `-1` iff no value of the
range has an occurrence count reaching the threshold.  (The resolver is a
total function in this embedding, so the "never throws" part is captured by
the statement being about its value.) -/
theorem C3_theorem (nums : List Int) (l r t : Int)
    (h0 : 0 ≤ l) (hlr : l ≤ r) (hr : r < (nums.length : Int)) (ht : 1 ≤ t)
    (hno : (((sliceElems nums l r).count (-1) : Nat) : Int) < t) :
    answerQuery nums ⟨l, r, t⟩ = -1 ↔
      ∀ v ∈ sliceElems nums l r, (((sliceElems nums l r).count v : Nat) : Int) < t := by
  have hK := hK_of_no_collision nums l r t hno
  obtain ⟨hspec1, -⟩ := select_spec t (buildFreq (sliceElems nums l r)) hK
  have han : answerQuery nums ⟨l, r, t⟩
      = (selectAnswer t (buildFreq (sliceElems nums l r))).1 := rfl
  rw [han]
  constructor
  · intro hres v hv
    obtain ⟨-, hnq⟩ := hspec1 hres
    have h2 : ¬ t ≤ (((sliceElems nums l r).count v : Nat) : Int) :=
      hnq (v, (sliceElems nums l r).count v) ((mem_buildFreq _ v _).mpr ⟨hv, rfl⟩)
    omega
  · intro hall
    have hnq : ∀ p ∈ buildFreq (sliceElems nums l r), ¬ t ≤ (p.2 : Int) := by
      rintro ⟨v, c⟩ hp
      obtain ⟨hv, hc⟩ := (mem_buildFreq _ v c).mp hp
      have h3 := hall v hv
      show ¬ t ≤ (c : Int)
      omega
    have h2 : selectAnswer t (buildFreq (sliceElems nums l r)) = (-1, 0) :=
      foldl_selStep_no_qual t _ hnq (-1, 0)
    rw [h2]

/-- Witness for C3: array `[1, 2]`, query `(0, 1, 2)`: every count is 1, below
the threshold 2, so the answer is the sentinel. -/
theorem C3_witness : answerQuery [1, 2] ⟨0, 1, 2⟩ = -1 :=
  (C3_theorem [1, 2] 0 1 2 (by decide) (by decide) (by decide) (by decide)
    (by decide)).mpr (by decide)

/-! ### Claim C4 -/

/-- C4: the output sequence has exactly one element per query, `output[i]` is
the answer of `queries[i]` (query order preserved), and an empty query batch
yields an empty output. -/
theorem C4_theorem (nums : List Int) (queries : List Query) :
    (Solution.numOfSubarrays nums queries).length = queries.length ∧
    (∀ i : Nat, (Solution.numOfSubarrays nums queries)[i]?
        = (queries[i]?).map (answerQuery nums)) ∧
    Solution.numOfSubarrays nums [] = [] := by
  refine ⟨?_, ?_, rfl⟩
  · rw [numOfSubarrays_eq_map, List.length_map]
  · intro i
    rw [numOfSubarrays_eq_map, List.getElem?_map]

/-! ### Claim C5 -/

/-- C5: `Solution::numOfSubarrays` and `SolutionOptimized::numOfSubarrays`
return identical output sequences on every input: the two classes differ only
in how the selection loop destructures the frequency-table entry. -/
theorem C5_theorem (nums : List Int) (queries : List Query) :
    Solution.numOfSubarrays nums queries = SolutionOptimized.numOfSubarrays nums queries := by
  unfold Solution.numOfSubarrays SolutionOptimized.numOfSubarrays
  have h : answerQueryOpt nums = answerQuery nums := by
    funext q
    unfold answerQueryOpt answerQuery selectAnswerOpt selectAnswer
    rw [selStepOpt_eq_selStep]
  rw [h]

/-! ### Claim C6 -/

/-- C6: on a singleton range `left == right` the frequency table is a single
entry of count 1, so the answer is `array[left]` when `threshold ≤ 1` (in
particular `threshold == 1`) and `-1` otherwise (in particular
`threshold == 2`). -/
theorem C6_theorem (nums : List Int) (l t : Int)
    (h0 : 0 ≤ l) (hl : l < (nums.length : Int)) :
    answerQuery nums ⟨l, l, t⟩ = if t ≤ 1 then nums.getD l.toNat 0 else -1 := by
  have hs : sliceElems nums l l = [nums.getD l.toNat 0] := by
    unfold sliceElems
    have h1 : (l + 1 - l).toNat = 1 := by omega
    have h2 : List.range 1 = [0] := rfl
    rw [h1, h2, List.map_singleton]
    simp
  rw [answerQuery_def, hs]
  show (selStep t (-1, 0) (nums.getD l.toNat 0, 1)).1 = _
  unfold selStep
  by_cases ht : t ≤ 1
  · rw [if_pos (show t ≤ (((1 : Nat) : Int)) by exact_mod_cast ht),
      if_pos (Or.inl rfl), if_pos ht]
  · rw [if_neg (show ¬ t ≤ (((1 : Nat) : Int)) by exact_mod_cast ht), if_neg ht]

/-- Witness for C6: the spec's Scenario 3, array `[5]` with thresholds 1
and 2. -/
theorem C6_witness :
    answerQuery [5] ⟨0, 0, 1⟩ = 5 ∧ answerQuery [5] ⟨0, 0, 2⟩ = -1 := by
  constructor
  · exact (C6_theorem [5] 0 1 (by decide) (by decide)).trans (by decide)
  · exact (C6_theorem [5] 0 2 (by decide) (by decide)).trans (by decide)

/-! ### Claim C7 -/

/-- C7: the resolver is a pure, deterministic function: two invocations with
equal array and equal query sequence produce equal result sequences. -/
theorem C7_theorem (nums1 nums2 : List Int) (qs1 qs2 : List Query)
    (h1 : nums1 = nums2) (h2 : qs1 = qs2) :
    Solution.numOfSubarrays nums1 qs1 = Solution.numOfSubarrays nums2 qs2 := by
  rw [h1, h2]

/-- Witness for C7: re-invoking on `[1, 1, 2, 2]` with query `(0, 3, 2)` gives
the same (concrete) result `[1]` both times. -/
theorem C7_witness :
    Solution.numOfSubarrays [1, 1, 2, 2] [⟨0, 3, 2⟩]
        = Solution.numOfSubarrays [1, 1, 2, 2] [⟨0, 3, 2⟩] ∧
    Solution.numOfSubarrays [1, 1, 2, 2] [⟨0, 3, 2⟩] = [1] :=
  ⟨C7_theorem [1, 1, 2, 2] [1, 1, 2, 2] [⟨0, 3, 2⟩] [⟨0, 3, 2⟩] rfl rfl, by decide⟩

/-! ### Claim C8 -/

/-- C8: running the resolver as a state machine over (array, queries, result)
leaves the array and the query sequence unchanged and only appends the output
sequence: the call has no side effect beyond producing its output. -/
theorem C8_theorem (nums : List Int) (queries : List Query) :
    (runResolver nums queries).nums = nums ∧
    (runResolver nums queries).queries = queries ∧
    (runResolver nums queries).result = Solution.numOfSubarrays nums queries := by
  obtain ⟨h1, h2, h3⟩ := runQueries_spec queries ⟨nums, queries, []⟩
  refine ⟨h1, h2, ?_⟩
  rw [numOfSubarrays_eq_map]
  unfold runResolver
  simpa using h3

/-! ### Claim C9 -/

/-- C9: the answer of a query depends only on the elements of
`array[left..right]` (and the threshold): two arrays agreeing on every index
of `[left, right]` give the same answer. -/
theorem C9_theorem (nums1 nums2 : List Int) (l r t : Int)
    (h0 : 0 ≤ l) (hlr : l ≤ r) (hr1 : r < (nums1.length : Int)) (hr2 : r < (nums2.length : Int))
    (ht : 1 ≤ t)
    (hagree : ∀ i : Int, l ≤ i → i ≤ r → nums1.getD i.toNat 0 = nums2.getD i.toNat 0) :
    answerQuery nums1 ⟨l, r, t⟩ = answerQuery nums2 ⟨l, r, t⟩ := by
  have hs : sliceElems nums1 l r = sliceElems nums2 l r := by
    unfold sliceElems
    apply List.map_congr_left
    intro k hk
    rw [List.mem_range] at hk
    apply hagree
    · omega
    · omega
  rw [answerQuery_def, answerQuery_def, hs]

/-- Witness for C9: `[7, 2, 3]` and `[9, 2, 3]` agree on indices 1..2, and the
query `(1, 2, 1)` gets the same answer on both. -/
theorem C9_witness : answerQuery [7, 2, 3] ⟨1, 2, 1⟩ = answerQuery [9, 2, 3] ⟨1, 2, 1⟩ := by
  apply C9_theorem [7, 2, 3] [9, 2, 3] 1 2 1 (by decide) (by decide) (by decide) (by decide)
    (by decide)
  intro i hi1 hi2
  have h : i = 1 ∨ i = 2 := by omega
  rcases h with rfl | rfl
  · rfl
  · rfl

/-! ### Claim C10 -/

theorem numOfSubarraysF_eq (nums : List Int) :
    ∀ queries : List Query,
      numOfSubarraysF nums queries = some (Solution.numOfSubarrays nums queries) := by
  intro queries
  induction queries with
  | nil => rfl
  | cons q rest ih =>
    show (match answerQueryF nums q, numOfSubarraysF nums rest with
      | some a, some res => some (a :: res)
      | _, _ => none) = _
    rw [answerQueryF_eq, ih]
    show some (answerQuery nums q :: Solution.numOfSubarrays nums rest)
        = some (Solution.numOfSubarrays nums (q :: rest))
    rw [numOfSubarrays_eq_map, numOfSubarrays_eq_map, List.map_cons]

/-- C10: on every input whose queries satisfy the preconditions, both loops of
each query body and the outer query loop terminate: the fuel-indexed resolver,
whose per-query fuel is the length of the queried range, exits every loop
within its fuel and returns the very result of `Solution::numOfSubarrays`. -/
theorem C10_theorem (nums : List Int) (queries : List Query)
    (h : ∀ q ∈ queries, 0 ≤ q.left ∧ q.left ≤ q.right ∧ q.right < (nums.length : Int)
        ∧ 1 ≤ q.threshold) :
    numOfSubarraysF nums queries = some (Solution.numOfSubarrays nums queries) :=
  numOfSubarraysF_eq nums queries

/-- Witness for C10: a concrete in-bounds batch terminates with the expected
result. -/
theorem C10_witness :
    numOfSubarraysF [1, 2] [⟨0, 1, 1⟩] = some (Solution.numOfSubarrays [1, 2] [⟨0, 1, 1⟩]) :=
  C10_theorem [1, 2] [⟨0, 1, 1⟩] (by decide)
